import Mathlib

/-!
Verification of the data-structure layer declared in src/src/dsc.h
(SolveSpace): the RgbaColor packed-integer conversions and the templated
List / IdList containers. Machine integers are modelled as Nat with
explicit reduction mod 2 to the word size where the source casts; the
fatal oops() paths are modelled as the none alternative of Option.
-/

/-- The RgbaColor class of dsc.h (lines 405-454): four uint8_t fields
red, green, blue, alpha, modelled as values below 256. -/
@[ext]
structure RgbaColor where
  red   : Fin 256
  green : Fin 256
  blue  : Fin 256
  alpha : Fin 256
deriving DecidableEq

/-- RgbaColor::From (dsc.h lines 430-437): each int argument is cast to
uint8_t, that is, reduced mod 256. -/
def RgbaColor.From (r g b a : Nat) : RgbaColor :=
  { red   := ⟨r % 256, Nat.mod_lt _ (by norm_num)⟩
    green := ⟨g % 256, Nat.mod_lt _ (by norm_num)⟩
    blue  := ⟨b % 256, Nat.mod_lt _ (by norm_num)⟩
    alpha := ⟨a % 256, Nat.mod_lt _ (by norm_num)⟩ }

/-- RgbaColor::ToPackedInt (dsc.h lines 422-428): the uint32_t word
red | (green << 8) | (blue << 16) | ((255 - alpha) << 24). Every operand
is below 2 to the 32, so the uint32_t result needs no further reduction. -/
def RgbaColor.ToPackedInt (c : RgbaColor) : Nat :=
  c.red.val ||| (c.green.val <<< 8) ||| (c.blue.val <<< 16) |||
    ((255 - c.alpha.val) <<< 24)

/-- RgbaColor::FromPackedInt (dsc.h lines 447-453): extract the four bytes
of the packed word, undoing the alpha inversion. -/
def RgbaColor.FromPackedInt (bgra : Nat) : RgbaColor :=
  RgbaColor.From (bgra &&& 0xff) ((bgra >>> 8) &&& 0xff)
    ((bgra >>> 16) &&& 0xff) (255 - ((bgra >>> 24) &&& 0xff))

/-- An element stored in the templated containers: h models the embedded
handle (the uint32_t field v of the H type), tag the mutable int tag field,
and val stands for the remaining payload of the element type T. -/
structure Elem where
  h   : Nat
  tag : Int
  val : Nat
deriving DecidableEq

/-- Reading elem[i]; out of range yields the zero element (the verified
paths below only read in range). -/
def elemAt (l : List Elem) (i : Nat) : Elem :=
  l.getD i ⟨0, 0, 0⟩

/-- State of the List template (dsc.h lines 145-222): the n stored elements
and the elemsAllocated capacity field. -/
structure ListState where
  elem : List Elem
  elemsAllocated : Nat
deriving DecidableEq

/-- The compaction loop shared by List::RemoveTagged (dsc.h 193-208) and
IdList::RemoveTagged (dsc.h 328-343): walk src over the elements in order,
drop each one whose tag is nonzero, keep the rest in order. -/
def removeTaggedLoop : List Elem → List Elem
  | [] => []
  | e :: rest => if e.tag ≠ 0 then removeTaggedLoop rest else e :: removeTaggedLoop rest

/-- List::RemoveTagged (dsc.h 193-208): compact in place; the comment in the
source notes that elemsAllocated is untouched because nothing was resized. -/
def SimpleList.RemoveTagged (s : ListState) : ListState :=
  { elem := removeTaggedLoop s.elem, elemsAllocated := s.elemsAllocated }

/-- List::RemoveLast (dsc.h 210-214): oops() when n < cnt, modelled none;
otherwise n -= cnt with elemsAllocated untouched. -/
def SimpleList.RemoveLast (s : ListState) (cnt : Nat) : Option ListState :=
  if s.elem.length < cnt then none
  else some { elem := s.elem.take (s.elem.length - cnt),
              elemsAllocated := s.elemsAllocated }

/-- IdList::MaximumId (dsc.h 234-242): a full scan folding max over the
handle values, starting from 0. -/
def IdList.MaximumId (l : List Elem) : Nat :=
  l.foldl (fun id e => max id e.h) 0

/-- The binary search loop of IdList::Add (dsc.h 257-270), looking for the
insertion point inside the interval [first, last]; the source locals mid
and hm are written out inline. The source loop runs while first != last;
on every call first <= last holds (first only moves up to mid+1 <= last
and last only moves down to mid >= first), so the guard first < last is
the same condition. none models the oops() abort on finding the handle
already present at mid. -/
def IdList.InsertPos (l : List Elem) (hv : Nat) (first last : Nat) : Option Nat :=
  if first < last then
    if (elemAt l ((first + last) / 2)).h > hv then
      IdList.InsertPos l hv first ((first + last) / 2)
    else if (elemAt l ((first + last) / 2)).h < hv then
      IdList.InsertPos l hv ((first + last) / 2 + 1) last
    else none
  else some first
termination_by last - first
decreasing_by
  · omega
  · omega

/-- IdList::Add (dsc.h 251-276): grow the buffer if needed (the capacity
field plays no role in the claims on IdList), binary search the insertion
point over [0, n], shift the tail up with memmove and write the new element
at the found index. none models the oops() abort on a duplicate handle. -/
def IdList.Add (l : List Elem) (t : Elem) : Option (List Elem) :=
  match IdList.InsertPos l t.h 0 l.length with
  | none => none
  | some i => some (l.take i ++ t :: l.drop i)

/-- IdList::AddAndAssignId (dsc.h 244-249): t.h.v = MaximumId() + 1 in
uint32_t arithmetic, then Add(t); the source returns the handle written
into t, which the model returns beside the new list. -/
def IdList.AddAndAssignId (l : List Elem) (t : Elem) : Option (List Elem × Nat) :=
  match IdList.Add l { t with h := (IdList.MaximumId l + 1) % 4294967296 } with
  | none => none
  | some l2 => some (l2, (IdList.MaximumId l + 1) % 4294967296)

/-- The binary search loop of IdList::FindByIdNoOops (dsc.h 287-301), over
int indices first and last (the source local mid is written out inline);
last starts at n-1, which is -1 on an empty list. Returns the index holding
the looked-up handle. -/
def IdList.FindPos (l : List Elem) (hv : Nat) (first last : Int) : Option Nat :=
  if first ≤ last then
    if (elemAt l ((first + last) / 2).toNat).h > hv then
      IdList.FindPos l hv first ((first + last) / 2 - 1)
    else if (elemAt l ((first + last) / 2).toNat).h < hv then
      IdList.FindPos l hv ((first + last) / 2 + 1) last
    else some ((first + last) / 2).toNat
  else none
termination_by (last + 1 - first).toNat
decreasing_by
  · omega
  · omega

/-- IdList::FindByIdNoOops (dsc.h 287-301): the element found by the binary
search, or none (the NULL return) when the handle is absent. -/
def IdList.FindByIdNoOops (l : List Elem) (hv : Nat) : Option Elem :=
  match IdList.FindPos l hv 0 ((l.length : Int) - 1) with
  | none => none
  | some i => some (elemAt l i)

/-- IdList::FindById (dsc.h 278-285): FindByIdNoOops, where the absent case
is the fatal oops() path, still modelled none. -/
def IdList.FindById (l : List Elem) (hv : Nat) : Option Elem :=
  IdList.FindByIdNoOops l hv

/-- IdList::ClearTags (dsc.h 312-317): set every tag to 0. -/
def IdList.ClearTags (l : List Elem) : List Elem :=
  l.map fun e => { e with tag := 0 }

/-- IdList::Tag (dsc.h 319-326): a linear scan writing tag into every
element whose handle equals h; there is no abort path. -/
def IdList.Tag (l : List Elem) (hv : Nat) (t : Int) : List Elem :=
  l.map fun e => if e.h = hv then { e with tag := t } else e

/-- IdList::RemoveTagged (dsc.h 328-343): the same compaction loop as
List::RemoveTagged. -/
def IdList.RemoveTagged (l : List Elem) : List Elem :=
  removeTaggedLoop l

/-- IdList::RemoveById (dsc.h 344-348): ClearTags, then write tag = 1
through the pointer FindById returned, then RemoveTagged; the FindById miss
is the fatal oops() path, modelled none. -/
def IdList.RemoveById (l : List Elem) (hv : Nat) : Option (List Elem) :=
  match IdList.FindPos (IdList.ClearTags l) hv 0 (((IdList.ClearTags l).length : Int) - 1) with
  | none => none
  | some i => some (IdList.RemoveTagged
      ((IdList.ClearTags l).set i { elemAt (IdList.ClearTags l) i with tag := 1 }))

/-- One operation of the Add / AddAndAssignId / RemoveById vocabulary the
claims quantify over. -/
inductive ContainerOp where
  | add : Elem → ContainerOp
  | addAndAssignId : Elem → ContainerOp
  | removeById : Nat → ContainerOp
deriving DecidableEq

/-- Apply one operation to an IdList; none propagates a fatal oops(). -/
def StepOp (l : List Elem) : ContainerOp → Option (List Elem)
  | .add t => IdList.Add l t
  | .addAndAssignId t => (IdList.AddAndAssignId l t).map Prod.fst
  | .removeById hv => IdList.RemoveById l hv

/-- Run a sequence of operations from a starting list, stopping at the
first fatal operation. -/
def RunOps (l : List Elem) : List ContainerOp → Option (List Elem)
  | [] => some l
  | op :: ops =>
    match StepOp l op with
    | none => none
    | some l2 => RunOps l2 ops

/-- The IdList invariant: handles strictly increase along the list, so no
two elements share a handle. -/
def SortedByH (l : List Elem) : Prop :=
  List.Pairwise (fun a b => a.h < b.h) l

instance : DecidablePred SortedByH := fun l =>
  List.instDecidablePairwise l

theorem lor_shiftLeft_eq_add (a b k : Nat) (ha : a < 2 ^ k) :
    a ||| (b <<< k) = 2 ^ k * b + a := by
  apply Nat.eq_of_testBit_eq
  intro j
  rw [Nat.testBit_lor, Nat.testBit_shiftLeft, Nat.testBit_mul_pow_two_add b ha j]
  by_cases h : j < k
  · have h2 : ¬ (j ≥ k) := by omega
    simp [h, h2]
  · have hk : j ≥ k := by omega
    have h3 : a < 2 ^ j := lt_of_lt_of_le ha (Nat.pow_le_pow_right (by norm_num) hk)
    simp [h, hk, Nat.testBit_lt_two_pow h3]

theorem and_255_eq_mod (x : Nat) : x &&& 255 = x % 256 := by
  have h := Nat.and_pow_two_sub_one_eq_mod x 8
  norm_num at h
  exact h

theorem shiftRight_eight (x : Nat) : x >>> 8 = x / 256 := by
  have h := Nat.shiftRight_eq_div_pow x 8
  norm_num at h
  exact h

theorem shiftRight_sixteen (x : Nat) : x >>> 16 = x / 65536 := by
  have h := Nat.shiftRight_eq_div_pow x 16
  norm_num at h
  exact h

theorem shiftRight_twentyfour (x : Nat) : x >>> 24 = x / 16777216 := by
  have h := Nat.shiftRight_eq_div_pow x 24
  norm_num at h
  exact h

/-- Arithmetic reading of the packed word: the bit-ors combine disjoint
byte ranges, so they add up. -/
theorem ToPackedInt_eq_arith (c : RgbaColor) :
    c.ToPackedInt = c.red.val + 256 * c.green.val + 65536 * c.blue.val
      + 16777216 * (255 - c.alpha.val) := by
  have hr := c.red.isLt
  have hg := c.green.isLt
  have hb := c.blue.isLt
  have h1 : c.red.val ||| (c.green.val <<< 8) = 2 ^ 8 * c.green.val + c.red.val :=
    lor_shiftLeft_eq_add _ _ _ (by norm_num; try omega)
  have h2 : (2 ^ 8 * c.green.val + c.red.val) ||| (c.blue.val <<< 16)
      = 2 ^ 16 * c.blue.val + (2 ^ 8 * c.green.val + c.red.val) :=
    lor_shiftLeft_eq_add _ _ _ (by norm_num; try omega)
  have h3 : (2 ^ 16 * c.blue.val + (2 ^ 8 * c.green.val + c.red.val)) |||
        ((255 - c.alpha.val) <<< 24)
      = 2 ^ 24 * (255 - c.alpha.val)
        + (2 ^ 16 * c.blue.val + (2 ^ 8 * c.green.val + c.red.val)) :=
    lor_shiftLeft_eq_add _ _ _ (by norm_num; try omega)
  unfold RgbaColor.ToPackedInt
  rw [h1, h2, h3]
  norm_num
  ring

/-- C1: for every RgbaColor c (each field a byte 0..255),
FromPackedInt(ToPackedInt(c)) returns a color whose four fields equal
those of c exactly. -/
theorem rgba_roundtrip (c : RgbaColor) :
    RgbaColor.FromPackedInt c.ToPackedInt = c := by
  have hr := c.red.isLt
  have hg := c.green.isLt
  have hb := c.blue.isLt
  have ha := c.alpha.isLt
  have harith := ToPackedInt_eq_arith c
  apply RgbaColor.ext <;>
  · apply Fin.ext
    simp only [RgbaColor.FromPackedInt, RgbaColor.From, and_255_eq_mod,
      shiftRight_eight, shiftRight_sixteen, shiftRight_twentyfour, harith]
    omega

/-- C2: ToPackedInt produces exactly the word
red | (green << 8) | (blue << 16) | ((255 - alpha) << 24); the packed word
keeps red in the low byte, then green, then blue, then inverted alpha in
the high byte, and fits in 32 bits. -/
theorem toPackedInt_layout (c : RgbaColor) :
    c.ToPackedInt = (c.red.val ||| (c.green.val <<< 8) ||| (c.blue.val <<< 16) |||
        ((255 - c.alpha.val) <<< 24))
    ∧ c.ToPackedInt % 256 = c.red.val
    ∧ c.ToPackedInt / 256 % 256 = c.green.val
    ∧ c.ToPackedInt / 65536 % 256 = c.blue.val
    ∧ c.ToPackedInt / 16777216 = 255 - c.alpha.val
    ∧ c.ToPackedInt < 4294967296 := by
  have hr := c.red.isLt
  have hg := c.green.isLt
  have hb := c.blue.isLt
  have ha := c.alpha.isLt
  have harith := ToPackedInt_eq_arith c
  refine ⟨rfl, ?_, ?_, ?_, ?_, ?_⟩ <;> (rw [harith]; omega)

/-- C9: decoding then encoding is the identity on every 32-bit word, not
only on words produced from field-wise colors. -/
theorem packedInt_roundtrip (w : Nat) (hw : w < 4294967296) :
    (RgbaColor.FromPackedInt w).ToPackedInt = w := by
  rw [ToPackedInt_eq_arith]
  simp only [RgbaColor.FromPackedInt, RgbaColor.From, and_255_eq_mod,
    shiftRight_eight, shiftRight_sixteen, shiftRight_twentyfour]
  omega

/-- C9 witness: the round trip evaluated at the concrete word 0x12345678. -/
theorem packedInt_roundtrip_witness :
    (RgbaColor.FromPackedInt 305419896).ToPackedInt = 305419896 :=
  packedInt_roundtrip 305419896 (by norm_num)

theorem elemAt_eq_getElem (l : List Elem) (i : Nat) (hi : i < l.length) :
    elemAt l i = l[i] :=
  List.getD_eq_getElem l _ hi

theorem sorted_lt_of_lt (l : List Elem) (hs : SortedByH l) {i j : Nat}
    (hij : i < j) (hj : j < l.length) : (elemAt l i).h < (elemAt l j).h := by
  have hi : i < l.length := lt_trans hij hj
  rw [elemAt_eq_getElem l i hi, elemAt_eq_getElem l j hj]
  exact (List.pairwise_iff_getElem.mp hs) i j hi hj hij

theorem sorted_le_of_le (l : List Elem) (hs : SortedByH l) {i j : Nat}
    (hij : i ≤ j) (hj : j < l.length) : (elemAt l i).h ≤ (elemAt l j).h := by
  rcases Nat.eq_or_lt_of_le hij with rfl | hlt
  · exact le_refl _
  · exact le_of_lt (sorted_lt_of_lt l hs hlt hj)

theorem sorted_handle_inj (l : List Elem) (hs : SortedByH l) {a b : Nat}
    (ha : a < l.length) (hb : b < l.length)
    (heq : (elemAt l a).h = (elemAt l b).h) : a = b := by
  rcases lt_trichotomy a b with hab | hab | hab
  · exact absurd heq (Nat.ne_of_lt (sorted_lt_of_lt l hs hab hb))
  · exact hab
  · exact absurd heq (Nat.ne_of_gt (sorted_lt_of_lt l hs hab ha))

/-- What the binary search of IdList::Add returns on a sorted list: a found
index splits the list into handles below hv and handles above hv, and the
none (oops) exit only happens when hv is already present. -/
theorem insertPos_spec (l : List Elem) (hv : Nat) (hs : SortedByH l) :
    ∀ (first last : Nat), first ≤ last → last ≤ l.length →
      (∀ j, j < first → (elemAt l j).h < hv) →
      (∀ j, last ≤ j → j < l.length → hv < (elemAt l j).h) →
      ((∀ i, IdList.InsertPos l hv first last = some i →
        first ≤ i ∧ i ≤ last ∧ (∀ j, j < i → (elemAt l j).h < hv) ∧
        (∀ j, i ≤ j → j < l.length → hv < (elemAt l j).h)) ∧
      (IdList.InsertPos l hv first last = none →
        ∃ j, j < l.length ∧ (elemAt l j).h = hv)) := by
  intro first last
  induction first, last using IdList.InsertPos.induct l hv with
  | case1 first last hflt hgt ih =>
    intro hfl hln hlow hhigh
    have hmlt : (first + last) / 2 < last := by omega
    have hmge : first ≤ (first + last) / 2 := by omega
    have hhigh2 : ∀ j, (first + last) / 2 ≤ j → j < l.length →
        hv < (elemAt l j).h := by
      intro j hj hjn
      exact lt_of_lt_of_le hgt (sorted_le_of_le l hs hj hjn)
    have hrec := ih hmge (by omega) hlow hhigh2
    rw [IdList.InsertPos.eq_def, if_pos hflt, if_pos hgt]
    constructor
    · intro i hi
      obtain ⟨h1, h2, h3, h4⟩ := hrec.1 i hi
      exact ⟨h1, by omega, h3, h4⟩
    · exact hrec.2
  | case2 first last hflt hngt hlt ih =>
    intro hfl hln hlow hhigh
    have hmlt : (first + last) / 2 < last := by omega
    have hlow2 : ∀ j, j < (first + last) / 2 + 1 → (elemAt l j).h < hv := by
      intro j hj
      by_cases hjf : j < first
      · exact hlow j hjf
      · exact lt_of_le_of_lt (sorted_le_of_le l hs (by omega) (by omega)) hlt
    have hrec := ih (by omega) hln hlow2 hhigh
    rw [IdList.InsertPos.eq_def, if_pos hflt, if_neg hngt, if_pos hlt]
    constructor
    · intro i hi
      obtain ⟨h1, h2, h3, h4⟩ := hrec.1 i hi
      exact ⟨by omega, h2, h3, h4⟩
    · exact hrec.2
  | case3 first last hflt hngt hnlt =>
    intro hfl hln hlow hhigh
    rw [IdList.InsertPos.eq_def, if_pos hflt, if_neg hngt, if_neg hnlt]
    constructor
    · intro i hi
      cases hi
    · intro _
      exact ⟨(first + last) / 2, by omega, by omega⟩
  | case4 first last hflt =>
    intro hfl hln hlow hhigh
    rw [IdList.InsertPos.eq_def, if_neg hflt]
    constructor
    · intro i hi
      injection hi with hi
      subst hi
      refine ⟨le_refl _, by omega, hlow, ?_⟩
      intro j hj hjn
      exact hhigh j (by omega) hjn
    · intro hcon
      cases hcon

/-- Inserting at an index that splits the handles below and above keeps the
list sorted. -/
theorem sorted_insert (l : List Elem) (t : Elem) (i : Nat) (hs : SortedByH l)
    (hlow : ∀ j, j < i → (elemAt l j).h < t.h)
    (hhigh : ∀ j, i ≤ j → j < l.length → t.h < (elemAt l j).h) :
    SortedByH (l.take i ++ t :: l.drop i) := by
  have htake : ∀ a ∈ l.take i, a.h < t.h := by
    intro a ha
    obtain ⟨j, hj, rfl⟩ := List.mem_iff_getElem.mp ha
    have hji : j < i := by
      have := hj
      rw [List.length_take] at this
      omega
    have hjn : j < l.length := by
      have := hj
      rw [List.length_take] at this
      omega
    rw [List.getElem_take, ← elemAt_eq_getElem l j hjn]
    exact hlow j hji
  have hdrop : ∀ a ∈ l.drop i, t.h < a.h := by
    intro a ha
    obtain ⟨j, hj, rfl⟩ := List.mem_iff_getElem.mp ha
    have hjn : i + j < l.length := by
      have := hj
      rw [List.length_drop] at this
      omega
    rw [List.getElem_drop, ← elemAt_eq_getElem l (i + j) hjn]
    exact hhigh (i + j) (by omega) hjn
  unfold SortedByH at *
  rw [List.pairwise_append]
  refine ⟨List.Pairwise.sublist (List.take_sublist i l) hs, ?_, ?_⟩
  · rw [List.pairwise_cons]
    exact ⟨hdrop, List.Pairwise.sublist (List.drop_sublist i l) hs⟩
  · intro a ha b hb
    rcases List.mem_cons.mp hb with rfl | hb2
    · exact htake a ha
    · exact lt_trans (htake a ha) (hdrop b hb2)

/-- IdList::Add on a sorted list: a successful return is the insertion of t
at the index the binary search produced, and the result stays sorted. -/
theorem add_spec (l : List Elem) (t : Elem) (hs : SortedByH l) :
    ∀ l2, IdList.Add l t = some l2 →
      SortedByH l2 ∧ ∃ i, i ≤ l.length ∧ l2 = l.take i ++ t :: l.drop i ∧
        (∀ j, j < i → (elemAt l j).h < t.h) ∧
        (∀ j, i ≤ j → j < l.length → t.h < (elemAt l j).h) := by
  intro l2 hadd
  unfold IdList.Add at hadd
  cases hip : IdList.InsertPos l t.h 0 l.length with
  | none =>
    rw [hip] at hadd
    cases hadd
  | some i =>
    rw [hip] at hadd
    injection hadd with hadd
    subst hadd
    obtain ⟨h1, h2, h3, h4⟩ := (insertPos_spec l t.h hs 0 l.length (by omega)
      (le_refl _) (fun j hj => absurd hj (Nat.not_lt_zero j))
      (fun j hj hjn => by omega)).1 i hip
    exact ⟨sorted_insert l t i hs h3 h4, i, h2, rfl, h3, h4⟩

/-- The inserted element sits at the insertion index. -/
theorem insert_elemAt (l : List Elem) (t : Elem) (i : Nat) (hi : i ≤ l.length) :
    elemAt (l.take i ++ t :: l.drop i) i = t := by
  have hlen : (l.take i).length = i := by
    rw [List.length_take]
    omega
  have htot : i < (l.take i ++ t :: l.drop i).length := by
    rw [List.length_append, hlen]
    simp
  rw [elemAt, List.getD_eq_getElem _ _ htot, List.getElem_append_right (by omega)]
  simp [hlen]

/-- The length of the insertion result. -/
theorem insert_length (l : List Elem) (t : Elem) (i : Nat) :
    (l.take i ++ t :: l.drop i).length = l.length + 1 := by
  rw [List.length_append, List.length_take]
  simp only [List.length_cons, List.length_drop]
  omega

/-- Soundness of the binary search of IdList::FindByIdNoOops, on any list:
a returned index is in range and holds the looked-up handle. -/
theorem findPos_sound (l : List Elem) (hv : Nat) :
    ∀ (first last : Int), 0 ≤ first → last < (l.length : Int) →
      ∀ i, IdList.FindPos l hv first last = some i →
        i < l.length ∧ (elemAt l i).h = hv := by
  intro first last
  induction first, last using IdList.FindPos.induct l hv with
  | case1 first last hfl hgt ih =>
    intro hf hl i hi
    rw [IdList.FindPos.eq_def, if_pos hfl, if_pos hgt] at hi
    exact ih hf (by omega) i hi
  | case2 first last hfl hngt hlt ih =>
    intro hf hl i hi
    rw [IdList.FindPos.eq_def, if_pos hfl, if_neg hngt, if_pos hlt] at hi
    exact ih (by omega) hl i hi
  | case3 first last hfl hngt hnlt =>
    intro hf hl i hi
    rw [IdList.FindPos.eq_def, if_pos hfl, if_neg hngt, if_neg hnlt] at hi
    injection hi with hi
    subst hi
    constructor
    · omega
    · omega
  | case4 first last hfl =>
    intro hf hl i hi
    rw [IdList.FindPos.eq_def, if_neg hfl] at hi
    cases hi

/-- Completeness of the binary search of IdList::FindByIdNoOops on a sorted
list: a none return means no element in range carries the handle. -/
theorem findPos_complete (l : List Elem) (hv : Nat) (hs : SortedByH l) :
    ∀ (first last : Int), 0 ≤ first → last < (l.length : Int) →
      (∀ j : Nat, (j : Int) < first → (elemAt l j).h < hv) →
      (∀ j : Nat, last < (j : Int) → j < l.length → hv < (elemAt l j).h) →
      IdList.FindPos l hv first last = none →
      ∀ j, j < l.length → (elemAt l j).h ≠ hv := by
  intro first last
  induction first, last using IdList.FindPos.induct l hv with
  | case1 first last hfl hgt ih =>
    intro hf hl hlow hhigh hnone
    rw [IdList.FindPos.eq_def, if_pos hfl, if_pos hgt] at hnone
    have hmn : ((first + last) / 2).toNat < l.length := by omega
    refine ih hf (by omega) hlow ?_ hnone
    intro j hj hjn
    have hmj : ((first + last) / 2).toNat ≤ j := by omega
    exact lt_of_lt_of_le hgt (sorted_le_of_le l hs hmj hjn)
  | case2 first last hfl hngt hlt ih =>
    intro hf hl hlow hhigh hnone
    rw [IdList.FindPos.eq_def, if_pos hfl, if_neg hngt, if_pos hlt] at hnone
    have hmn : ((first + last) / 2).toNat < l.length := by omega
    refine ih (by omega) hl ?_ hhigh hnone
    intro j hj
    by_cases hjf : (j : Int) < first
    · exact hlow j hjf
    · have hjm : j ≤ ((first + last) / 2).toNat := by omega
      exact lt_of_le_of_lt (sorted_le_of_le l hs hjm hmn) hlt
  | case3 first last hfl hngt hnlt =>
    intro hf hl hlow hhigh hnone
    rw [IdList.FindPos.eq_def, if_pos hfl, if_neg hngt, if_neg hnlt] at hnone
    cases hnone
  | case4 first last hfl =>
    intro hf hl hlow hhigh hnone j hjn
    by_cases hjf : (j : Int) < first
    · exact Nat.ne_of_lt (hlow j hjf)
    · exact Nat.ne_of_gt (hhigh j (by omega) hjn)

theorem clearTags_length (l : List Elem) :
    (IdList.ClearTags l).length = l.length := by
  unfold IdList.ClearTags
  exact List.length_map l _

theorem sortedByH_clearTags (l : List Elem) (hs : SortedByH l) :
    SortedByH (IdList.ClearTags l) :=
  List.Pairwise.map _ (fun _ _ hab => hab) hs

theorem sortedByH_set (l : List Elem) (i : Nat) (e : Elem) (hi : i < l.length)
    (he : e.h = (elemAt l i).h) (hs : SortedByH l) : SortedByH (l.set i e) := by
  unfold SortedByH at *
  rw [List.pairwise_iff_getElem] at *
  intro a b ha hb hab
  rw [List.length_set] at ha hb
  rw [List.getElem_set, List.getElem_set]
  rw [elemAt_eq_getElem l i hi] at he
  by_cases hia : i = a
  · have hib : ¬ (i = b) := by omega
    rw [if_pos hia, if_neg hib]
    subst hia
    rw [he]
    exact hs i b hi hb hab
  · by_cases hib : i = b
    · rw [if_neg hia, if_pos hib]
      subst hib
      rw [he]
      exact hs a i ha hi hab
    · rw [if_neg hia, if_neg hib]
      exact hs a b ha hb hab

theorem removeTaggedLoop_sublist (l : List Elem) :
    (removeTaggedLoop l).Sublist l := by
  induction l with
  | nil => exact List.Sublist.refl []
  | cons e rest ih =>
    simp only [removeTaggedLoop]
    by_cases he : e.tag ≠ 0
    · rw [if_pos he]
      exact List.Sublist.cons e ih
    · rw [if_neg he]
      exact List.Sublist.cons₂ e ih

theorem removeTaggedLoop_eq_filter (l : List Elem) :
    removeTaggedLoop l = l.filter (fun e => e.tag == 0) := by
  induction l with
  | nil => rfl
  | cons e rest ih =>
    simp only [removeTaggedLoop, List.filter_cons]
    by_cases he : e.tag = 0 <;> simp [he, ih]

theorem removeTaggedLoop_length (l : List Elem) :
    (removeTaggedLoop l).length = l.countP (fun e => e.tag == 0) := by
  induction l with
  | nil => rfl
  | cons e rest ih =>
    simp only [removeTaggedLoop, List.countP_cons]
    by_cases he : e.tag = 0 <;> simp [he, ih]

theorem sortedByH_removeById (l : List Elem) (hv : Nat) (hs : SortedByH l) :
    ∀ l2, IdList.RemoveById l hv = some l2 → SortedByH l2 := by
  intro l2 hrem
  unfold IdList.RemoveById at hrem
  cases hfp : IdList.FindPos (IdList.ClearTags l) hv 0
      (((IdList.ClearTags l).length : Int) - 1) with
  | none =>
    rw [hfp] at hrem
    cases hrem
  | some i =>
    rw [hfp] at hrem
    injection hrem with hrem
    subst hrem
    have hic := findPos_sound (IdList.ClearTags l) hv 0 _ (by omega) (by omega) i hfp
    have hsc : SortedByH (IdList.ClearTags l) := sortedByH_clearTags l hs
    have hss := sortedByH_set (IdList.ClearTags l) i
      { elemAt (IdList.ClearTags l) i with tag := 1 } hic.1 rfl hsc
    exact List.Pairwise.sublist (removeTaggedLoop_sublist _) hss

theorem stepOp_sorted (l : List Elem) (op : ContainerOp) (l2 : List Elem)
    (hs : SortedByH l) (hstep : StepOp l op = some l2) : SortedByH l2 := by
  cases op with
  | add t =>
    exact (add_spec l t hs l2 hstep).1
  | addAndAssignId t =>
    simp only [StepOp] at hstep
    unfold IdList.AddAndAssignId at hstep
    cases hadd : IdList.Add l { t with h := (IdList.MaximumId l + 1) % 4294967296 } with
    | none =>
      rw [hadd] at hstep
      simp at hstep
    | some l3 =>
      rw [hadd] at hstep
      simp at hstep
      subst hstep
      exact (add_spec l _ hs l3 hadd).1
  | removeById hv =>
    exact sortedByH_removeById l hv hs l2 hstep

theorem runOps_sorted (ops : List ContainerOp) :
    ∀ l0 l, SortedByH l0 → RunOps l0 ops = some l → SortedByH l := by
  induction ops with
  | nil =>
    intro l0 l hs hrun
    unfold RunOps at hrun
    injection hrun with hrun
    subst hrun
    exact hs
  | cons op ops ih =>
    intro l0 l hs hrun
    unfold RunOps at hrun
    cases hstep : StepOp l0 op with
    | none =>
      rw [hstep] at hrun
      simp at hrun
    | some l1 =>
      rw [hstep] at hrun
      exact ih l1 l (stepOp_sorted l0 op l1 hs hstep) hrun

/-- C4: after running any Add / AddAndAssignId / RemoveById sequence from
the empty IdList without hitting a fatal path, the elements are in strictly
ascending handle order and no two elements share a handle; since every
prefix of such a sequence is itself such a sequence, this holds after every
operation. -/
theorem idList_invariant (ops : List ContainerOp) (l : List Elem)
    (hrun : RunOps [] ops = some l) :
    SortedByH l ∧ (l.map Elem.h).Nodup := by
  have hs := runOps_sorted ops [] l List.Pairwise.nil hrun
  exact ⟨hs, List.Pairwise.map _ (fun _ _ hab => Nat.ne_of_lt hab) hs⟩

/-- C4 witness: the sequence Add(5), AddAndAssignId, RemoveById(5) run on
the empty container ends in a concrete sorted duplicate-free list. -/
theorem idList_invariant_witness :
    SortedByH [⟨6, 0, 11⟩] ∧ (([⟨6, 0, 11⟩] : List Elem).map Elem.h).Nodup :=
  idList_invariant [.add ⟨5, 0, 10⟩, .addAndAssignId ⟨0, 0, 11⟩, .removeById 5]
    [⟨6, 0, 11⟩]
    (by simp [RunOps, StepOp, IdList.Add, IdList.InsertPos, elemAt,
      IdList.AddAndAssignId, IdList.MaximumId, IdList.RemoveById,
      IdList.ClearTags, IdList.FindPos, IdList.RemoveTagged, removeTaggedLoop])

/-- C5: on a list satisfying the sorted invariant, Add with a handle that
is already present takes the fatal oops() path, modelled none: the call
neither returns a recoverable value nor a silently modified list. -/
theorem add_duplicate_fatal (l : List Elem) (t : Elem) (hs : SortedByH l)
    (hdup : ∃ e ∈ l, e.h = t.h) : IdList.Add l t = none := by
  obtain ⟨e, he, heq⟩ := hdup
  obtain ⟨j, hj, rfl⟩ := List.mem_iff_getElem.mp he
  cases hip : IdList.InsertPos l t.h 0 l.length with
  | none =>
    unfold IdList.Add
    rw [hip]
  | some i =>
    exfalso
    obtain ⟨h1, h2, h3, h4⟩ := (insertPos_spec l t.h hs 0 l.length (by omega)
      (le_refl _) (fun j2 hj2 => absurd hj2 (Nat.not_lt_zero j2))
      (fun j2 hj2 hjn2 => by omega)).1 i hip
    rw [← elemAt_eq_getElem l j hj] at heq
    by_cases hji : j < i
    · exact absurd heq (Nat.ne_of_lt (h3 j hji))
    · exact absurd heq (Nat.ne_of_gt (h4 j (by omega) hj))

/-- C5 witness: adding handle 3 into a list already holding handle 3 takes
the fatal path. -/
theorem add_duplicate_fatal_witness :
    IdList.Add [⟨3, 0, 0⟩] ⟨3, 0, 9⟩ = none :=
  add_duplicate_fatal [⟨3, 0, 0⟩] ⟨3, 0, 9⟩ (by decide)
    ⟨⟨3, 0, 0⟩, by decide, rfl⟩

/-- C6: after a successful Add of t into a sorted list, FindByIdNoOops on
the handle of t returns t itself, and FindById succeeds with the same
element instead of hitting its fatal path. -/
theorem find_after_add (l : List Elem) (t : Elem) (l2 : List Elem)
    (hs : SortedByH l) (hadd : IdList.Add l t = some l2) :
    IdList.FindByIdNoOops l2 t.h = some t ∧ IdList.FindById l2 t.h = some t := by
  obtain ⟨hs2, i, hi, heq, hlow, hhigh⟩ := add_spec l t hs l2 hadd
  subst heq
  have hlen := insert_length l t i
  have hti := insert_elemAt l t i hi
  have hin : i < (l.take i ++ t :: l.drop i).length := by omega
  suffices hfind : IdList.FindByIdNoOops (l.take i ++ t :: l.drop i) t.h = some t by
    exact ⟨hfind, hfind⟩
  unfold IdList.FindByIdNoOops
  cases hfp : IdList.FindPos (l.take i ++ t :: l.drop i) t.h 0
      (((l.take i ++ t :: l.drop i).length : Int) - 1) with
  | none =>
    exfalso
    have hcomp := findPos_complete _ t.h hs2 0 _ (by omega) (by omega)
      (fun j hj => absurd hj (by omega))
      (fun j hj hjn => by omega) hfp i hin
    rw [hti] at hcomp
    exact hcomp rfl
  | some k =>
    obtain ⟨hk, hkh⟩ := findPos_sound _ t.h 0 _ (by omega) (by omega) k hfp
    have hki : k = i := by
      apply sorted_handle_inj _ hs2 hk hin
      rw [hkh, hti]
    subst hki
    exact congrArg some hti

/-- C6 witness: after adding handle 4 to the sorted singleton with handle
2, both lookups return the added element. -/
theorem find_after_add_witness :
    IdList.FindByIdNoOops [⟨2, 0, 5⟩, ⟨4, 0, 6⟩] 4 = some ⟨4, 0, 6⟩ ∧
    IdList.FindById [⟨2, 0, 5⟩, ⟨4, 0, 6⟩] 4 = some ⟨4, 0, 6⟩ :=
  find_after_add [⟨2, 0, 5⟩] ⟨4, 0, 6⟩ [⟨2, 0, 5⟩, ⟨4, 0, 6⟩] (by decide)
    (by simp [IdList.Add, IdList.InsertPos, elemAt])

theorem foldl_max_init_le (l : List Elem) :
    ∀ a : Nat, a ≤ l.foldl (fun id e => max id e.h) a := by
  induction l with
  | nil =>
    intro a
    exact le_refl a
  | cons x rest ih =>
    intro a
    rw [List.foldl_cons]
    exact le_trans (le_max_left a x.h) (ih (max a x.h))

theorem le_maximumId (l : List Elem) : ∀ e ∈ l, e.h ≤ IdList.MaximumId l := by
  unfold IdList.MaximumId
  suffices h : ∀ (a : Nat), ∀ e ∈ l, e.h ≤ l.foldl (fun id e => max id e.h) a by
    exact h 0
  induction l with
  | nil =>
    intro a e he
    cases he
  | cons x rest ih =>
    intro a e he
    rw [List.foldl_cons]
    rcases List.mem_cons.mp he with rfl | he2
    · exact le_trans (le_max_right a e.h) (foldl_max_init_le rest (max a e.h))
    · exact ih (max a x.h) e he2

/-- C3 amended: AddAndAssignId assigns the handle (MaximumId()+1) computed
in uint32_t arithmetic, that is, (current maximum handle)+1 reduced mod
2 to the 32; while the maximum does not wrap, the assigned handle is
strictly above every handle currently stored, so no currently present
handle is ever reassigned — but a handle assigned earlier in the container
lifetime and removed since can be assigned again, as the counterexample
shows. -/
theorem addAndAssignId_handle (l : List Elem) (t : Elem) (l2 : List Elem) (hv : Nat)
    (hadd : IdList.AddAndAssignId l t = some (l2, hv)) :
    hv = (IdList.MaximumId l + 1) % 4294967296 ∧
    (IdList.MaximumId l + 1 < 4294967296 → ∀ e ∈ l, e.h < hv) := by
  unfold IdList.AddAndAssignId at hadd
  cases hadd2 : IdList.Add l { t with h := (IdList.MaximumId l + 1) % 4294967296 } with
  | none =>
    rw [hadd2] at hadd
    simp at hadd
  | some l3 =>
    rw [hadd2] at hadd
    simp only [] at hadd
    injection hadd with hadd
    have hhv : hv = (IdList.MaximumId l + 1) % 4294967296 := by
      have h2 := congrArg Prod.snd hadd
      simpa using h2.symm
    refine ⟨hhv, ?_⟩
    intro hnow e he
    have h1 := le_maximumId l e he
    rw [hhv]
    omega

/-- C3 amended witness: on a list whose maximum handle is 3, the assigned
handle is 4, strictly above the handle of every stored element. -/
theorem addAndAssignId_handle_witness :
    4 = (IdList.MaximumId [⟨3, 0, 0⟩] + 1) % 4294967296 ∧
    (IdList.MaximumId [⟨3, 0, 0⟩] + 1 < 4294967296 →
      ∀ e ∈ [(⟨3, 0, 0⟩ : Elem)], e.h < 4) :=
  addAndAssignId_handle [⟨3, 0, 0⟩] ⟨0, 0, 7⟩ [⟨3, 0, 0⟩, ⟨4, 0, 7⟩] 4
    (by simp [IdList.AddAndAssignId, IdList.Add, IdList.InsertPos, elemAt,
      IdList.MaximumId])

/-- C3 counterexample: one container lifetime in which AddAndAssignId
assigns handle 1, RemoveById removes that element, and the next
AddAndAssignId assigns handle 1 again — a handle value previously assigned
within the same container lifetime is reused after a removal, refuting the
never-reuse reading of the claim. -/
theorem addAndAssignId_reuse_counterexample :
    IdList.AddAndAssignId [] ⟨0, 0, 0⟩ = some ([⟨1, 0, 0⟩], 1) ∧
    IdList.RemoveById [⟨1, 0, 0⟩] 1 = some [] ∧
    IdList.AddAndAssignId [] ⟨0, 0, 1⟩ = some ([⟨1, 0, 1⟩], 1) := by
  refine ⟨?_, ?_, ?_⟩ <;>
    simp [IdList.AddAndAssignId, IdList.Add, IdList.InsertPos, IdList.MaximumId,
      IdList.RemoveById, IdList.ClearTags, IdList.FindPos, IdList.RemoveTagged,
      removeTaggedLoop, elemAt]

/-- C7: RemoveTagged, on the List state as well as on IdList contents,
keeps exactly the elements whose tag is zero, in their original relative
order (the result is the tag = 0 filter and a sublist of the input), the
new length counts the untagged elements, and elemsAllocated is unchanged. -/
theorem removeTagged_spec (s : ListState) (l : List Elem) :
    (SimpleList.RemoveTagged s).elem = s.elem.filter (fun e => e.tag == 0) ∧
    ((SimpleList.RemoveTagged s).elem).Sublist s.elem ∧
    (SimpleList.RemoveTagged s).elem.length = s.elem.countP (fun e => e.tag == 0) ∧
    (SimpleList.RemoveTagged s).elemsAllocated = s.elemsAllocated ∧
    IdList.RemoveTagged l = l.filter (fun e => e.tag == 0) ∧
    (IdList.RemoveTagged l).Sublist l ∧
    (IdList.RemoveTagged l).length = l.countP (fun e => e.tag == 0) :=
  ⟨removeTaggedLoop_eq_filter s.elem, removeTaggedLoop_sublist s.elem,
    removeTaggedLoop_length s.elem, rfl, removeTaggedLoop_eq_filter l,
    removeTaggedLoop_sublist l, removeTaggedLoop_length l⟩

/-- C8: RemoveLast(cnt) hits the fatal oops() if and only if cnt exceeds
the current length; otherwise it succeeds, the new length is n - cnt, the
kept prefix is exactly the first n - cnt old elements, and elemsAllocated
is unchanged. -/
theorem removeLast_spec (s : ListState) (cnt : Nat) :
    (SimpleList.RemoveLast s cnt = none ↔ s.elem.length < cnt) ∧
    (∀ s2, SimpleList.RemoveLast s cnt = some s2 →
      s2.elem.length = s.elem.length - cnt ∧
      s2.elem = s.elem.take (s.elem.length - cnt) ∧
      s2.elemsAllocated = s.elemsAllocated) := by
  unfold SimpleList.RemoveLast
  by_cases hc : s.elem.length < cnt
  · rw [if_pos hc]
    refine ⟨⟨fun _ => hc, fun _ => rfl⟩, ?_⟩
    intro s2 h
    cases h
  · rw [if_neg hc]
    refine ⟨⟨fun h => Option.noConfusion h, fun h => absurd h hc⟩, ?_⟩
    intro s2 h
    injection h with h
    subst h
    refine ⟨?_, rfl, rfl⟩
    rw [List.length_take]
    omega

/-- C10: Tag with a handle no element carries terminates normally (the scan
has no abort path) and leaves the list unchanged, while RemoveById on the
same missing handle takes the fatal path; when elements match, Tag writes
their tag field and changes nothing else (the length and every non-matching
element are untouched). -/
theorem tag_spec (l : List Elem) (hv : Nat) (t : Int) :
    (IdList.Tag l hv t).length = l.length ∧
    (∀ i, i < l.length → (elemAt l i).h ≠ hv →
      elemAt (IdList.Tag l hv t) i = elemAt l i) ∧
    (∀ i, i < l.length → (elemAt l i).h = hv →
      elemAt (IdList.Tag l hv t) i = { elemAt l i with tag := t }) ∧
    ((∀ e ∈ l, e.h ≠ hv) → IdList.Tag l hv t = l ∧ IdList.RemoveById l hv = none) := by
  have hlen : (IdList.Tag l hv t).length = l.length := by
    unfold IdList.Tag
    exact List.length_map l _
  refine ⟨hlen, ?_, ?_, ?_⟩
  · intro i hi hne
    rw [elemAt_eq_getElem l i hi, elemAt_eq_getElem _ i (by omega)]
    unfold IdList.Tag
    rw [List.getElem_map]
    rw [elemAt_eq_getElem l i hi] at hne
    rw [if_neg hne]
  · intro i hi he
    rw [elemAt_eq_getElem l i hi, elemAt_eq_getElem _ i (by omega)]
    unfold IdList.Tag
    rw [List.getElem_map]
    rw [elemAt_eq_getElem l i hi] at he
    rw [if_pos he]
  · intro hno
    constructor
    · unfold IdList.Tag
      have hcongr : ∀ e ∈ l, (if e.h = hv then { e with tag := t } else e) = id e := by
        intro e he
        rw [if_neg (hno e he)]
        rfl
      rw [List.map_congr_left hcongr, List.map_id]
    · unfold IdList.RemoveById
      cases hfp : IdList.FindPos (IdList.ClearTags l) hv 0
          (((IdList.ClearTags l).length : Int) - 1) with
      | none => rfl
      | some i =>
        exfalso
        obtain ⟨hi, hih⟩ := findPos_sound _ hv 0 _ (by omega) (by omega) i hfp
        have hil : i < l.length := by
          rw [clearTags_length] at hi
          exact hi
        rw [elemAt_eq_getElem _ i hi] at hih
        unfold IdList.ClearTags at hih
        rw [List.getElem_map] at hih
        exact hno (l[i]) (List.getElem_mem hil) hih
